import Mathlib

/-!
Verification development for the CareSense review-analytics core.

The repository contains two side-by-side variants of the sentiment engine:

* `V1` - the "lookahead" pipeline (`normalize`, `split_sentences`,
  `remove_punct`, `tokenize`, `drop_stopwords`, `score_tokens`,
  `analyze_text`) together with the one-pass aggregator
  (`accumulate_counts`, `bucket_rating`, `top_k`) and the lexicon `LEXICON`.
* `V2` - the "running scale" analyzer (`simple_tokenize`, `analyze_review`,
  `label_to_color`) over the lexicon `POLARITY`.

Python floats are modelled by `ℚ` (exact arithmetic), Python strings by
`String` (code points), Python dicts by insertion-ordered association lists.
-/

namespace CareSense

/-! ## Python-style string primitives -/

/-- Whitespace characters recognised by the model of Python's `str.strip` /
`str.split` (the ASCII whitespace set). -/
def pyIsSpace (c : Char) : Bool :=
  c == ' ' || c == '\t' || c == '\n' || c == '\r' || c == '\x0B' || c == '\x0C'

/-- Model of Python `str.strip()`: drop leading and trailing whitespace. -/
def pyStrip (s : String) : String :=
  String.mk (((s.data.dropWhile fun c => pyIsSpace c).reverse.dropWhile
      fun c => pyIsSpace c).reverse)

/-- Lowercase one character, as Python `str.lower()` does on ASCII letters. -/
def lowerChar (c : Char) : Char :=
  if 65 ≤ c.toNat ∧ c.toNat ≤ 90 then Char.ofNat (c.toNat + 32) else c

/-- Model of Python `str.lower()`. -/
def pyLower (s : String) : String := String.mk (s.data.map lowerChar)

/-- Helper for `pySplitWs`: scan the remaining characters keeping the
current (reversed) token in the accumulator. -/
def splitWsGo : List Char → List Char → List String
  | acc, [] => if acc.isEmpty then [] else [String.mk acc.reverse]
  | acc, c :: rest =>
    if pyIsSpace c then
      if acc.isEmpty then splitWsGo [] rest
      else String.mk acc.reverse :: splitWsGo [] rest
    else splitWsGo (c :: acc) rest

/-- Model of Python `str.split()` with no argument: split on runs of
whitespace, producing no empty tokens. -/
def pySplitWs (s : String) : List String := splitWsGo [] s.data

/-- Does the second character list start with the first? -/
def listStarts : List Char → List Char → Bool
  | [], _ => true
  | _ :: _, [] => false
  | a :: as, b :: bs => a == b && listStarts as bs

/-- Does the first character list occur contiguously inside the second? -/
def listHas : List Char → List Char → Bool
  | n, [] => n.isEmpty
  | n, c :: t => listStarts n (c :: t) || listHas n t

/-- Model of Python's substring test `needle in haystack`. -/
def strIn (needle hay : String) : Bool := listHas needle.data hay.data

/-- Model of Python `str.endswith(c)` for a one-character suffix. -/
def pyEndsWith (s : String) (c : Char) : Bool := s.data.getLast? == some c

/-- Replace every occurrence of a character, as Python `str.replace` with
one-character arguments. -/
def replaceCh (a b : Char) (s : String) : String :=
  String.mk (s.data.map fun c => if c = a then b else c)

/-- Association-list lookup, modelling Python `dict.__getitem__` /
membership on a dict literal. -/
def lookupA {α : Type} : List (String × α) → String → Option α
  | [], _ => none
  | kv :: rest, k => if kv.1 = k then some kv.2 else lookupA rest k

/-- Association-list lookup with a default, modelling Python `dict.get`. -/
def getD {α : Type} (m : List (String × α)) (k : String) (d : α) : α :=
  match lookupA m k with
  | some v => v
  | none => d

/-- Code-point comparison of strings (Python `<` on `str`), weak version. -/
def strLe : List Char → List Char → Bool
  | [], _ => true
  | _ :: _, [] => false
  | a :: as, b :: bs => decide (a < b) || (decide (a = b) && strLe as bs)

/-- Code-point comparison of strings (Python `<` on `str`), strict version. -/
def strLt : List Char → List Char → Bool
  | _, [] => false
  | [], _ :: _ => true
  | a :: as, b :: bs => decide (a < b) || (decide (a = b) && strLt as bs)

/-! ## The V1 engine: lookahead scorer and `analyze_text`

Transcribed from the first variant in `sentiment_engine.py` and the first
variant in `tiny_lexicon.py`. -/

namespace V1

/-- Token-to-polarity mapping. -/
abbrev Lexicon := List (String × ℚ)

/-- The stopword set of the V1 pipeline. -/
def STOPWORDS : List String :=
  ["a", "an", "the", "and", "or", "but", "if", "so", "to", "of", "for", "in",
   "on", "at", "with", "this", "that", "these", "those", "it", "is", "are",
   "was", "were", "be", "been", "being", "i", "you", "he", "she", "they",
   "we", "me", "him", "her", "them", "my", "your", "our", "their"]

/-- The punctuation set removed by `remove_punct`. -/
def PUNCT : List Char :=
  [',', '.', '!', '?', ':', ';', '"', '\x27', '(', ')', '[', ']',
   '\x7B', '\x7D', '-', '/', '\\']

/-- Negation tokens. -/
def NEGATIONS : List String := ["not", "no", "never", "n\x27t"]

/-- Intensifier tokens with their factors. -/
def INTENSIFIERS : Lexicon :=
  [("very", 1.5), ("really", 1.3), ("so", 1.2), ("extremely", 1.8)]

/-- De-intensifier tokens with their factors. -/
def DEINTENSIFIERS : Lexicon :=
  [("slightly", 0.7), ("somewhat", 0.8), ("barely", 0.6)]

/-- The V1 polarity lexicon (`LEXICON` in `tiny_lexicon.py`). -/
def LEXICON : Lexicon :=
  [("good", 1.5), ("great", 2.0), ("excellent", 2.5), ("clean", 0.8),
   ("pleasant", 0.9), ("welcoming", 1.2), ("attentive", 1.3),
   ("efficient", 1.0), ("fantastic", 2.2), ("glad", 0.7),
   ("hospitable", 1.4), ("friendly", 1.2), ("helpful", 1.1),
   ("quick", 0.7), ("professional", 1.1), ("bedside", 0.4), ("manner", 0.3),
   ("bad", -1.5), ("worst", -2.5), ("dirty", -1.5), ("rude", -2.0),
   ("slow", -0.9), ("unpleasant", -1.2), ("unwelcoming", -1.3),
   ("inefficient", -1.1), ("painful", -1.0), ("confusing", -0.8),
   ("expensive", -0.7), ("wait", -0.4), ("waiting", -0.4),
   ("crowded", -0.7), ("skeptical", -0.3),
   ("doctor", 0.4), ("nurse", 0.3), ("front", 0.0), ("desk", 0.0),
   ("clinic", 0.2), ("care", 0.3), ("urgent", 0.0), ("health", 0.2),
   ("area", 0.0), ("rooms", 0.0)]

/-- Lowercase and strip leading/trailing whitespace. -/
def normalize (text : String) : String := pyStrip (pyLower text)

/-- Remove basic punctuation characters. -/
def remove_punct (text : String) : String :=
  String.mk (text.data.filter fun ch => ch ∉ PUNCT)

/-- Split into tokens by whitespace. -/
def tokenize (text : String) : List String := pySplitWs text

/-- Remove common stopwords. -/
def drop_stopwords (tokens : List String) : List String :=
  tokens.filter fun t => t ∉ STOPWORDS

/-- Helper for `split_sentences`: the first argument holds the reversed
current buffer. -/
def sentSplitGo : List Char → List Char → List String
  | buff, [] => if buff.isEmpty then [] else [pyStrip (String.mk buff.reverse)]
  | buff, c :: rest =>
    if c = '.' ∨ c = '!' ∨ c = '?' then
      pyStrip (String.mk (c :: buff).reverse) :: sentSplitGo [] rest
    else sentSplitGo (c :: buff) rest

/-- Simple sentence splitter based on `.`, `!`, `?`. -/
def split_sentences (text : String) : List String := sentSplitGo [] text.data

/-- Score a token list with lexicon lookup, single-word negation flipping
the next word, and degree modifiers scaling the next word (the lookahead
policy: a recognised modifier with a following token consumes both). -/
def score_tokens : List String → Lexicon → ℚ
  | [], _ => 0
  | [t], lex => getD lex t 0
  | t :: nxt :: rest, lex =>
    if t ∈ NEGATIONS then -getD lex nxt 0 + score_tokens rest lex
    else
      match lookupA INTENSIFIERS t with
      | some f => getD lex nxt 0 * f + score_tokens rest lex
      | none =>
        match lookupA DEINTENSIFIERS t with
        | some f => getD lex nxt 0 * f + score_tokens rest lex
        | none => getD lex t 0 + score_tokens (nxt :: rest) lex

/-- The sliding-window "strongest segment". -/
structure Segment where
  start : ℕ
  endIdx : ℕ
  score : ℚ
  text : String
deriving DecidableEq

/-- Result record of `analyze_text`. -/
structure AnalysisResult where
  total_score : ℚ
  label : String
  sentence_scores : List (String × ℚ)
  most_positive_sentence : String × ℚ
  most_negative_sentence : String × ℚ
  strongest_segment : Segment
deriving DecidableEq

/-- Python `max(l, key=lambda x: x[1])` guarded by `if l else ("", 0.0)`:
the first element of maximal score. -/
def maxByScore : List (String × ℚ) → String × ℚ
  | [] => ("", 0)
  | x :: xs => xs.foldl (fun b a => if a.2 > b.2 then a else b) x

/-- Python `min(l, key=lambda x: x[1])` guarded by `if l else ("", 0.0)`:
the first element of minimal score. -/
def minByScore : List (String × ℚ) → String × ℚ
  | [] => ("", 0)
  | x :: xs => xs.foldl (fun b a => if a.2 < b.2 then a else b) x

/-- Initial value of the best-segment accumulator. -/
def initSeg : Segment := ⟨0, 0, 0, ""⟩

/-- One step of the best-segment scan: replace only on strictly greater
absolute score. -/
def pickSeg (b c : Segment) : Segment := if |c.score| > |b.score| then c else b

/-- The `(window, start)` pairs enumerated by the nested loops
`for window in range(1, min(3, n) + 1): for i in range(0, n - window + 1)`,
in that order. -/
def windowPairs (n : ℕ) : List (ℕ × ℕ) :=
  ((List.range (min 3 n)).map fun j =>
    (List.range (n - j)).map fun i => (j + 1, i)).flatten

/-- The segment determined by a `(window, start)` pair. -/
def segOf (ss : List (String × ℚ)) (wi : ℕ × ℕ) : Segment :=
  let seg := (ss.drop wi.2).take wi.1
  { start := wi.2
    endIdx := wi.2 + wi.1 - 1
    score := (seg.map Prod.snd).sum
    text := String.intercalate " " (seg.map Prod.fst) }

/-- Sliding window over sentence scores to find the strongest segment
(window size 3 or fewer). -/
def bestSegment (ss : List (String × ℚ)) : Segment :=
  ((windowPairs ss.length).map (segOf ss)).foldl pickSeg initSeg

/-- Per-sentence scores of a review: each sentence of the normalized text,
paired with the score of its cleaned, stopword-free tokens. -/
def sentScoresOf (text : String) (lexicon : Lexicon) : List (String × ℚ) :=
  (split_sentences (normalize text)).map fun s =>
    (s, score_tokens (drop_stopwords (tokenize (remove_punct s))) lexicon)

/-- Full V1 pipeline for one review: normalize, sentence split,
per-sentence scoring, threshold label, extreme sentences, and the
sliding-window peak. -/
def analyze_text (text : String) (lexicon : Lexicon) : AnalysisResult :=
  let sent_scores := sentScoresOf text lexicon
  let total := (sent_scores.map Prod.snd).sum
  { total_score := total
    label :=
      if total > 0.5 then "positive"
      else if total < -0.5 then "negative"
      else "neutral"
    sentence_scores := sent_scores
    most_positive_sentence := maxByScore sent_scores
    most_negative_sentence := minByScore sent_scores
    strongest_segment := bestSegment sent_scores }

end V1

/-! ## The V2 engine: running-scale scorer and `analyze_review`

Transcribed from the active code in `sentiment_engine.py` and
`tiny_lexicon.py`. -/

namespace V2

/-- Negator tokens. -/
def NEGATORS : List String := ["not", "no", "never", "n\x27t"]

/-- Intensifier tokens with their factors. -/
def INTENSIFIERS : List (String × ℚ) :=
  [("very", 1.25), ("really", 1.2), ("extremely", 1.5), ("too", 1.15)]

/-- De-intensifier tokens with their factors. -/
def DEINTENSIFIERS : List (String × ℚ) :=
  [("slightly", 0.8), ("somewhat", 0.9), ("barely", 0.7)]

/-- The active polarity lexicon (`POLARITY` in `tiny_lexicon.py`). -/
def POLARITY : List (String × ℚ) :=
  [("good", 1.0), ("great", 1.5), ("excellent", 2.0), ("amazing", 2.0),
   ("friendly", 1.2), ("clean", 0.8), ("professional", 1.0), ("kind", 1.0),
   ("helpful", 1.0), ("quick", 0.6),
   ("bad", -1.0), ("terrible", -2.0), ("awful", -2.0), ("rude", -1.5),
   ("dirty", -1.2), ("slow", -0.8), ("expensive", -0.6), ("painful", -1.2),
   ("wait", -0.5), ("waiting", -0.5)]

/-- Very small tokenizer: lower, split on spaces, strip non-alphanumeric
characters at the ends of each piece, keep non-empty cores. -/
def simple_tokenize (text : String) : List String :=
  (pySplitWs (pyLower text)).filterMap fun w =>
    let core := ((w.data.dropWhile fun c => !c.isAlphanum).reverse.dropWhile
        fun c => !c.isAlphanum).reverse
    if core.isEmpty then none else some (String.mk core)

/-- The scoring loop of `analyze_review`: state is the running total, the
negate-next flag, and the multiplicative scale (which decays toward 1 after
each scored token). -/
def scoreLoop : List String → ℚ → Bool → ℚ → ℚ
  | [], total, _, _ => total
  | t :: rest, total, negate_next, scale =>
    if t ∈ NEGATORS then scoreLoop rest total true scale
    else
      match lookupA INTENSIFIERS t with
      | some f => scoreLoop rest total negate_next (scale * f)
      | none =>
        match lookupA DEINTENSIFIERS t with
        | some f => scoreLoop rest total negate_next (scale * f)
        | none =>
          let val := getD POLARITY t 0
          let val' := if negate_next then -val else val
          scoreLoop rest (total + val' * scale) false (1 + (scale - 1) * 0.5)

/-- Round half to even, modelling Python's `round` on an exact value. -/
def roundHalfEven (q : ℚ) : ℤ :=
  if q - ⌊q⌋ < 1/2 then ⌊q⌋
  else if q - ⌊q⌋ > 1/2 then ⌊q⌋ + 1
  else if ⌊q⌋ % 2 = 0 then ⌊q⌋ else ⌊q⌋ + 1

/-- Model of Python `round(q, 3)` on an exact value. -/
def round3 (q : ℚ) : ℚ := (roundHalfEven (q * 1000) : ℚ) / 1000

/-- The accumulated total of `analyze_review` before rounding: the scoring
loop over the tokens followed by the ending-punctuation boost. -/
def reviewTotal (text : String) : ℚ :=
  let tokens := simple_tokenize text
  let total := scoreLoop tokens 0 false 1
  if pyEndsWith text '!' then total * 1.1
  else if pyEndsWith text '?' then total * 1.05
  else total

/-- Return `(label, score)` where the label is thresholded at `±0.5`
inclusively and the score is the total rounded to three decimals. -/
def analyze_review (text : String) : String × ℚ :=
  let tokens := simple_tokenize text
  let total := scoreLoop tokens 0 false 1
  let total' :=
    if pyEndsWith text '!' then total * 1.1
    else if pyEndsWith text '?' then total * 1.05
    else total
  let label :=
    if total' ≥ 0.5 then "positive"
    else if total' ≤ -0.5 then "negative"
    else "neutral"
  (label, round3 total')

/-- Fixed label-to-color lookup table with default `"#6b7280"`. -/
def label_to_color (label : String) : String :=
  getD [("positive", "#22c55e"), ("neutral", "#f59e0b"),
        ("negative", "#ef4444")] label "#6b7280"

end V2

/-! ## The aggregator: `metrics.py` (V1 variant)

Counters model Python `defaultdict(int)`: insertion-ordered association
lists whose `bump` operation increments in place or appends a fresh key. -/

namespace M

/-- An insertion-ordered counter, modelling `defaultdict(int)`. -/
abbrev Counter := List (String × ℕ)

/-- Add `n` to the count of `k`: increment in place if the key is present,
append `(k, n)` otherwise. -/
def bumpBy : Counter → String → ℕ → Counter
  | [], k, n => [(k, n)]
  | kv :: rest, k, n =>
    if kv.1 = k then (kv.1, kv.2 + n) :: rest else kv :: bumpBy rest k n

/-- Increment the count of `k` by one (`d[k] += 1`). -/
def bump (c : Counter) (k : String) : Counter := bumpBy c k 1

/-- Fold a list of keyed increments into a counter; with a counter as the
second argument this is the "sum same-keyed counters" merge. -/
def mergeC (c : Counter) (ops : List (String × ℕ)) : Counter :=
  ops.foldl (fun a kv => bumpBy a kv.1 kv.2) c

/-- The count stored for a key (0 if absent). -/
def lookupN : Counter → String → ℕ
  | [], _ => 0
  | kv :: rest, k => if kv.1 = k then kv.2 else lookupN rest k

/-- Sum of all stored counts. -/
def sumVals (c : Counter) : ℕ := (c.map Prod.snd).sum

/-- The keys of a counter, in insertion order. -/
def keysOf (c : Counter) : List String := c.map Prod.fst

/-- Sort key of `top_k`: Python's `(-count, key)` tuple order. -/
def leKV (a b : String × ℕ) : Bool :=
  decide (b.2 < a.2) || (decide (a.2 = b.2) && strLe a.1.data b.1.data)

/-- Model of `sorted(d.items(), key=lambda kv: (-kv[1], kv[0]))[:k]`
(Python's sort is stable, hence so is this model). -/
def top_k (d : Counter) (k : ℕ) : List (String × ℕ) :=
  (List.insertionSort (fun a b => leKV a b = true) d).take k

/-- Model of Python `int(float(raw))` restricted to plain decimal literals
(optional sign, digits, optional fractional part), with truncation toward
zero; anything else fails. -/
def natOfDigits : List Char → ℕ → ℕ
  | [], acc => acc
  | c :: cs, acc => natOfDigits cs (acc * 10 + (c.toNat - 48))

/-- Truncate a rational toward zero, as Python `int(...)` does. -/
def truncQ (q : ℚ) : ℤ := if 0 ≤ q then ⌊q⌋ else -⌊-q⌋

/-- Parse a decimal literal as a rational; models the successful paths of
Python `float(raw)` on plain decimal input. -/
def pyParseNum (s : String) : Option ℚ :=
  let cs := (pyStrip s).data
  let sgncs : ℚ × List Char :=
    match cs with
    | '+' :: rest => (1, rest)
    | '-' :: rest => (-1, rest)
    | _ => (1, cs)
  let intPart := sgncs.2.takeWhile fun c => c.isDigit
  let rest := sgncs.2.dropWhile fun c => c.isDigit
  match rest with
  | [] =>
    if intPart.isEmpty then none
    else some (sgncs.1 * (natOfDigits intPart 0 : ℚ))
  | '.' :: frac =>
    if (frac.all fun c => c.isDigit) ∧ ¬(intPart.isEmpty ∧ frac.isEmpty) then
      some (sgncs.1 *
        ((natOfDigits intPart 0 : ℚ) +
          (natOfDigits frac 0 : ℚ) / (10 : ℚ) ^ frac.length))
    else none
  | _ => none

/-- Map a free-form rating to one of the buckets `"1"`..`"5"`, or `"NA"`
on parse failure: `str(min(max(int(float(raw)), 1), 5))`. -/
def bucket_rating (raw : String) : String :=
  match pyParseNum raw with
  | some q => toString (min (max (truncQ q) 1) 5)
  | none => "NA"

/-- A review row as consumed by `accumulate_counts`: the fields the
aggregator reads (`"Review Text"`, `"Review Rating"`, `"state"`), plus the
optional precomputed `"Label"` carried by rows elsewhere in the system.
Absent text/rating/state keys are modelled by `""`. -/
structure Row where
  reviewText : String
  reviewRating : String
  state : String
  label : Option String
deriving DecidableEq

/-- The region charged with a negative review:
`(row.get("state", "") or "Unknown").strip() or "Unknown"`. -/
def regionOf (row : Row) : String :=
  let s := if row.state = "" then "Unknown" else row.state
  let s' := pyStrip s
  if s' = "" then "Unknown" else s'

/-- The four fixed keyword categories, in insertion order. -/
def ISSUE_KEYS : List (String × List String) :=
  [("wait", ["wait", "waiting", "delay", "delayed", "queue"]),
   ("staff", ["rude", "unfriendly", "dismissive", "attitude"]),
   ("cleanliness", ["dirty", "unclean", "filthy"]),
   ("billing", ["billing", "charge", "charges", "expensive"])]

/-- Tokens of the lowercased text split on commas and periods only, kept
when they are lexicon words of negative polarity. -/
def negTermTokens (t : String) : List String :=
  (pySplitWs (replaceCh '.' ' ' (replaceCh ',' ' ' t))).filter fun w =>
    match lookupA V1.LEXICON w with
    | some v => decide (v < 0)
    | none => false

/-- The five running counters of `accumulate_counts`. -/
structure AggState where
  label_counts : Counter
  rating_hist : Counter
  issues_by_state : Counter
  issue_buckets : Counter
  neg_terms : Counter
deriving DecidableEq

/-- All counters empty. -/
def initAgg : AggState := ⟨[], [], [], [], []⟩

/-- The body of the `for row in rows` loop of `accumulate_counts`. -/
def stepRow (st : AggState) (row : Row) : AggState :=
  let text := pyStrip row.reviewText
  if text = "" then st
  else
    let label := (V1.analyze_text text V1.LEXICON).label
    let st1 : AggState := { st with label_counts := bump st.label_counts label }
    let st2 : AggState :=
      { st1 with rating_hist := bump st1.rating_hist (bucket_rating row.reviewRating) }
    if label = "negative" then
      let t := pyLower text
      let st3 : AggState :=
        { st2 with issues_by_state := bump st2.issues_by_state (regionOf row) }
      let st4 : AggState :=
        { st3 with issue_buckets :=
            (ISSUE_KEYS.foldl
              (fun c kv => if kv.2.any fun v => strIn v t then bump c kv.1 else c)
              st3.issue_buckets) }
      { st4 with neg_terms := (negTermTokens t).foldl bump st4.neg_terms }
    else st2

/-- The counters after the single pass of `accumulate_counts` over `rows`. -/
def accCounts (rows : List Row) : AggState := rows.foldl stepRow initAgg

/-- The dictionary returned by `accumulate_counts`. -/
structure Metrics where
  label_counts : Counter
  rating_hist : Counter
  issues_by_state_top : List (String × ℕ)
  issue_buckets : Counter
  neg_terms_top : List (String × ℕ)
deriving DecidableEq

/-- Assemble the returned dictionary from the five counters. -/
def finalizeAgg (st : AggState) : Metrics :=
  { label_counts := st.label_counts
    rating_hist := st.rating_hist
    issues_by_state_top := top_k st.issues_by_state 10
    issue_buckets := st.issue_buckets
    neg_terms_top := top_k st.neg_terms 15 }

/-- One pass over rows producing label counts, rating histogram, top
negative states, issue buckets and top negative terms. -/
def accumulate_counts (rows : List Row) : Metrics := finalizeAgg (accCounts rows)

/-- Merge two partial counter states by summing same-keyed counters. -/
def mergeState (a b : AggState) : AggState :=
  { label_counts := mergeC a.label_counts b.label_counts
    rating_hist := mergeC a.rating_hist b.rating_hist
    issues_by_state := mergeC a.issues_by_state b.issues_by_state
    issue_buckets := mergeC a.issue_buckets b.issue_buckets
    neg_terms := mergeC a.neg_terms b.neg_terms }

/-- Equality of counters as finite maps: Python `dict` equality ignores
insertion order, and these counters never store a zero count. -/
def counterEq (c1 c2 : Counter) : Prop := ∀ k, lookupN c1 k = lookupN c2 k

/-- Equality of two returned metrics dictionaries in the Python sense:
counter members compare as maps, top-k members compare as lists. -/
def metricsEq (m1 m2 : Metrics) : Prop :=
  counterEq m1.label_counts m2.label_counts ∧
  counterEq m1.rating_hist m2.rating_hist ∧
  m1.issues_by_state_top = m2.issues_by_state_top ∧
  counterEq m1.issue_buckets m2.issue_buckets ∧
  m1.neg_terms_top = m2.neg_terms_top

/-! Per-row increment lists: the keyed increments a single row contributes
to each counter. `stepRow` is exactly the merge of these into the state. -/

/-- The stripped review text of a row. -/
def procText (row : Row) : String := pyStrip row.reviewText

/-- The label the aggregator computes for a processed row: always the V1
analyzer's label on the stripped text (the stored `label` is not read). -/
def rowLabel (row : Row) : String := (V1.analyze_text (procText row) V1.LEXICON).label

/-- Increment list for `label_counts`. -/
def labelOps (row : Row) : List (String × ℕ) :=
  if procText row = "" then [] else [(rowLabel row, 1)]

/-- Increment list for `rating_hist`. -/
def ratingOps (row : Row) : List (String × ℕ) :=
  if procText row = "" then [] else [(bucket_rating row.reviewRating, 1)]

/-- Increment list for `issues_by_state`. -/
def stateOps (row : Row) : List (String × ℕ) :=
  if procText row ≠ "" ∧ rowLabel row = "negative" then [(regionOf row, 1)] else []

/-- Increment list for `issue_buckets`. -/
def bucketOps (row : Row) : List (String × ℕ) :=
  if procText row ≠ "" ∧ rowLabel row = "negative" then
    ISSUE_KEYS.filterMap fun kv =>
      if kv.2.any fun v => strIn v (pyLower (procText row)) then some (kv.1, 1)
      else none
  else []

/-- Increment list for `neg_terms`. -/
def termOps (row : Row) : List (String × ℕ) :=
  if procText row ≠ "" ∧ rowLabel row = "negative" then
    (negTermTokens (pyLower (procText row))).map fun w => (w, 1)
  else []

end M

end CareSense

/-! ## Counter algebra

The merge law for `accumulate_counts` rests on a small algebra of the
`bumpBy`/`mergeC` operations on insertion-ordered counters. -/

namespace CareSense

namespace M

theorem mergeC_nil (c : Counter) : mergeC c [] = c := rfl

theorem mergeC_cons (c : Counter) (kv : String × ℕ) (ops : List (String × ℕ)) :
    mergeC c (kv :: ops) = mergeC (bumpBy c kv.1 kv.2) ops := rfl

theorem mergeC_single (c : Counter) (k : String) (n : ℕ) :
    mergeC c [(k, n)] = bumpBy c k n := rfl

theorem bumpBy_bumpBy_same (c : Counter) (k : String) (m n : ℕ) :
    bumpBy (bumpBy c k m) k n = bumpBy c k (m + n) := by
  induction c with
  | nil => simp [bumpBy, Nat.add_assoc]
  | cons kv rest ih =>
    by_cases h : kv.1 = k
    · simp [bumpBy, h, Nat.add_assoc]
    · simp [bumpBy, h, ih]

theorem mem_keysOf_bumpBy (c : Counter) (k k2 : String) (n : ℕ) :
    k2 ∈ keysOf (bumpBy c k n) ↔ k2 ∈ keysOf c ∨ k2 = k := by
  induction c with
  | nil => simp [bumpBy, keysOf]
  | cons kv rest ih =>
    by_cases h : kv.1 = k
    · subst h
      simp [bumpBy, keysOf]
      tauto
    · simp [bumpBy, h, keysOf] at ih ⊢
      tauto

theorem bumpBy_comm_of_mem (c : Counter) (k : String) (hk : k ∈ keysOf c)
    (k2 : String) (v2 n : ℕ) :
    bumpBy (bumpBy c k n) k2 v2 = bumpBy (bumpBy c k2 v2) k n := by
  induction c with
  | nil => simp [keysOf] at hk
  | cons kv rest ih =>
    by_cases h2 : kv.1 = k
    · subst h2
      by_cases h3 : kv.1 = k2
      · subst h3
        simp [bumpBy, Nat.add_right_comm]
      · simp [bumpBy, h3]
    · have hk2 : k ∈ keysOf rest := by
        simp only [keysOf, List.map_cons, List.mem_cons] at hk
        rcases hk with h | h
        · exact absurd h.symm h2
        · exact h
      by_cases h3 : kv.1 = k2
      · subst h3
        simp [bumpBy, h2]
      · simp [bumpBy, h2, h3, ih hk2]

theorem mergeC_bumpBy_of_mem (ops : List (String × ℕ)) (c : Counter)
    (k : String) (hk : k ∈ keysOf c) (n : ℕ) :
    mergeC (bumpBy c k n) ops = bumpBy (mergeC c ops) k n := by
  induction ops generalizing c with
  | nil => rfl
  | cons kv rest ih =>
    rw [mergeC_cons, mergeC_cons]
    rw [bumpBy_comm_of_mem c k hk kv.1 kv.2 n]
    exact ih (bumpBy c kv.1 kv.2) ((mem_keysOf_bumpBy _ _ _ _).mpr (Or.inl hk))

theorem mem_keysOf_bumpBy_self (c : Counter) (k : String) (n : ℕ) :
    k ∈ keysOf (bumpBy c k n) := (mem_keysOf_bumpBy c k k n).mpr (Or.inr rfl)

theorem mergeC_bumpBy (t : Counter) (c : Counter) (k : String) (n : ℕ) :
    mergeC c (bumpBy t k n) = bumpBy (mergeC c t) k n := by
  induction t generalizing c with
  | nil => rfl
  | cons kv rest ih =>
    by_cases h : kv.1 = k
    · subst h
      have h1 : bumpBy (kv :: rest) kv.1 n = (kv.1, kv.2 + n) :: rest := by
        simp [bumpBy]
      rw [h1, mergeC_cons, mergeC_cons]
      show mergeC (bumpBy c kv.1 (kv.2 + n)) rest
        = bumpBy (mergeC (bumpBy c kv.1 kv.2) rest) kv.1 n
      rw [← bumpBy_bumpBy_same c kv.1 kv.2 n]
      exact mergeC_bumpBy_of_mem rest _ kv.1 (mem_keysOf_bumpBy_self c kv.1 kv.2) n
    · have h1 : bumpBy (kv :: rest) k n = kv :: bumpBy rest k n := by
        simp [bumpBy, h]
      rw [h1, mergeC_cons, mergeC_cons]
      exact ih (bumpBy c kv.1 kv.2)

theorem mergeC_mergeC (l : List (String × ℕ)) (t c : Counter) :
    mergeC c (mergeC t l) = mergeC (mergeC c t) l := by
  induction l generalizing t with
  | nil => rfl
  | cons kv rest ih =>
    rw [mergeC_cons, mergeC_cons, ih (bumpBy t kv.1 kv.2), mergeC_bumpBy]

theorem mergeC_assoc_ops (c : Counter) (ops : List (String × ℕ)) (f : Counter) :
    mergeC (mergeC c ops) f = mergeC c (mergeC (mergeC [] ops) f) := by
  rw [mergeC_mergeC f (mergeC [] ops) c, mergeC_mergeC ops ([] : Counter) c]
  rfl

theorem lookupN_bumpBy (c : Counter) (k k2 : String) (n : ℕ) :
    lookupN (bumpBy c k n) k2 = lookupN c k2 + if k = k2 then n else 0 := by
  induction c with
  | nil =>
    by_cases h : k = k2 <;> simp [bumpBy, lookupN, h]
  | cons kv rest ih =>
    by_cases h : kv.1 = k
    · subst h
      by_cases h2 : kv.1 = k2 <;> simp [bumpBy, lookupN, h2]
    · by_cases h2 : kv.1 = k2
      · subst h2
        simp [bumpBy, h, lookupN, Ne.symm h]
      · simp [bumpBy, h, lookupN, h2, ih]

/-- Total increment that a list of keyed increments contributes to `k`. -/
def opsCount (ops : List (String × ℕ)) (k : String) : ℕ :=
  (ops.map fun kv => if kv.1 = k then kv.2 else 0).sum

theorem lookupN_mergeC (ops : List (String × ℕ)) (c : Counter) (k : String) :
    lookupN (mergeC c ops) k = lookupN c k + opsCount ops k := by
  induction ops generalizing c with
  | nil => simp [mergeC_nil, opsCount]
  | cons kv rest ih =>
    rw [mergeC_cons, ih]
    simp only [opsCount, List.map_cons, List.sum_cons, lookupN_bumpBy]
    by_cases h : kv.1 = k <;> simp [h, opsCount] <;> omega

theorem sumVals_bumpBy (c : Counter) (k : String) (n : ℕ) :
    sumVals (bumpBy c k n) = sumVals c + n := by
  induction c with
  | nil => simp [bumpBy, sumVals]
  | cons kv rest ih =>
    by_cases h : kv.1 = k
    · simp [bumpBy, h, sumVals]
      omega
    · simp [bumpBy, h, sumVals] at ih ⊢
      omega

theorem sumVals_mergeC (ops : List (String × ℕ)) (c : Counter) :
    sumVals (mergeC c ops) = sumVals c + (ops.map Prod.snd).sum := by
  induction ops generalizing c with
  | nil => simp [mergeC_nil]
  | cons kv rest ih =>
    rw [mergeC_cons, ih, sumVals_bumpBy]
    simp
    omega

theorem foldl_bump_eq_mergeC (l : List String) (c : Counter) :
    l.foldl bump c = mergeC c (l.map fun w => (w, 1)) := by
  induction l generalizing c with
  | nil => rfl
  | cons w rest ih => simp only [List.foldl_cons, List.map_cons, mergeC_cons, ih]; rfl

theorem foldl_condBump_eq_mergeC {α : Type} (ks : List α) (key : α → String)
    (p : α → Bool) (c : Counter) :
    ks.foldl (fun c a => if p a then bump c (key a) else c) c
      = mergeC c (ks.filterMap fun a => if p a then some (key a, 1) else none) := by
  induction ks generalizing c with
  | nil => rfl
  | cons a rest ih =>
    by_cases h : p a
    · simp only [List.foldl_cons, List.filterMap_cons, h, if_pos, ih, mergeC_cons]
      rfl
    · simp only [List.foldl_cons, List.filterMap_cons, h, ih]
      simp [h]

end M

end CareSense

/-! ## The aggregator step as a componentwise merge -/

namespace CareSense

namespace M

theorem stepRow_eq_merge (st : AggState) (row : Row) :
    stepRow st row =
      { label_counts := mergeC st.label_counts (labelOps row)
        rating_hist := mergeC st.rating_hist (ratingOps row)
        issues_by_state := mergeC st.issues_by_state (stateOps row)
        issue_buckets := mergeC st.issue_buckets (bucketOps row)
        neg_terms := mergeC st.neg_terms (termOps row) } := by
  obtain ⟨a, b, c, d, e⟩ := st
  simp only [stepRow, labelOps, ratingOps, stateOps, bucketOps, termOps,
    procText, rowLabel]
  by_cases h1 : pyStrip row.reviewText = ""
  · simp [h1, mergeC_nil]
  · simp only [h1, if_neg, ite_false, ne_eq, not_false_iff, true_and]
    by_cases h2 : (V1.analyze_text (pyStrip row.reviewText) V1.LEXICON).label = "negative"
    · simp only [h2, ite_true, if_pos]
      rw [foldl_bump_eq_mergeC,
        foldl_condBump_eq_mergeC ISSUE_KEYS Prod.fst
          (fun kv => kv.2.any fun v => strIn v (pyLower (pyStrip row.reviewText)))]
      simp [mergeC_single, bump]
    · simp [h2, mergeC_single, bump, mergeC_nil]

theorem foldl_stepRow_eq (rows : List Row) (st : AggState) :
    rows.foldl stepRow st = mergeState st (accCounts rows) := by
  induction rows generalizing st with
  | nil =>
    obtain ⟨a, b, c, d, e⟩ := st
    simp [accCounts, mergeState, mergeC_nil, initAgg]
  | cons row rest ih =>
    have hacc : accCounts (row :: rest) = mergeState (stepRow initAgg row) (accCounts rest) := by
      show (row :: rest).foldl stepRow initAgg = _
      rw [List.foldl_cons, ih (stepRow initAgg row)]
    rw [List.foldl_cons, ih (stepRow st row), hacc]
    obtain ⟨a, b, c, d, e⟩ := st
    rw [stepRow_eq_merge, stepRow_eq_merge]
    simp only [mergeState, initAgg]
    refine AggState.mk.injEq .. ▸ ?_
    constructor
    · exact (mergeC_assoc_ops a (labelOps row) (accCounts rest).label_counts)
    constructor
    · exact (mergeC_assoc_ops b (ratingOps row) (accCounts rest).rating_hist)
    constructor
    · exact (mergeC_assoc_ops c (stateOps row) (accCounts rest).issues_by_state)
    constructor
    · exact (mergeC_assoc_ops d (bucketOps row) (accCounts rest).issue_buckets)
    · exact (mergeC_assoc_ops e (termOps row) (accCounts rest).neg_terms)

theorem accCounts_append (p1 p2 : List Row) :
    accCounts (p1 ++ p2) = mergeState (accCounts p1) (accCounts p2) := by
  show (p1 ++ p2).foldl stepRow initAgg = _
  rw [List.foldl_append]
  exact foldl_stepRow_eq p2 (accCounts p1)

end M

end CareSense

/-! ## Lookup and sum of the accumulated counters -/

namespace CareSense

/-- Strings with equal character data are equal. -/
theorem strDataEq {a b : String} (h : a.data = b.data) : a = b := by
  cases a; cases b; exact congrArg String.mk h

namespace M

theorem stepRow_label (st : AggState) (r : Row) :
    (stepRow st r).label_counts = mergeC st.label_counts (labelOps r) := by
  rw [stepRow_eq_merge]

theorem stepRow_rating (st : AggState) (r : Row) :
    (stepRow st r).rating_hist = mergeC st.rating_hist (ratingOps r) := by
  rw [stepRow_eq_merge]

theorem stepRow_state (st : AggState) (r : Row) :
    (stepRow st r).issues_by_state = mergeC st.issues_by_state (stateOps r) := by
  rw [stepRow_eq_merge]

theorem stepRow_bucket (st : AggState) (r : Row) :
    (stepRow st r).issue_buckets = mergeC st.issue_buckets (bucketOps r) := by
  rw [stepRow_eq_merge]

theorem stepRow_term (st : AggState) (r : Row) :
    (stepRow st r).neg_terms = mergeC st.neg_terms (termOps r) := by
  rw [stepRow_eq_merge]

theorem lookupN_foldl (proj : AggState → Counter) (ops : Row → List (String × ℕ))
    (hstep : ∀ st r, proj (stepRow st r) = mergeC (proj st) (ops r))
    (rows : List Row) (st : AggState) (k : String) :
    lookupN (proj (rows.foldl stepRow st)) k
      = lookupN (proj st) k + (rows.map fun r => opsCount (ops r) k).sum := by
  induction rows generalizing st with
  | nil => simp
  | cons r rest ih =>
    rw [List.foldl_cons, ih, hstep, lookupN_mergeC]
    simp [Nat.add_assoc]

theorem lookupN_accCounts (proj : AggState → Counter) (ops : Row → List (String × ℕ))
    (hstep : ∀ st r, proj (stepRow st r) = mergeC (proj st) (ops r))
    (hinit : proj initAgg = [])
    (rows : List Row) (k : String) :
    lookupN (proj (accCounts rows)) k = (rows.map fun r => opsCount (ops r) k).sum := by
  have h := lookupN_foldl proj ops hstep rows initAgg k
  rw [accCounts] at *
  rw [h, hinit]
  simp [lookupN]

theorem lookupN_accCounts_perm (proj : AggState → Counter) (ops : Row → List (String × ℕ))
    (hstep : ∀ st r, proj (stepRow st r) = mergeC (proj st) (ops r))
    (hinit : proj initAgg = [])
    (rows rows2 : List Row) (hp : rows.Perm rows2) (k : String) :
    lookupN (proj (accCounts rows)) k = lookupN (proj (accCounts rows2)) k := by
  rw [lookupN_accCounts proj ops hstep hinit, lookupN_accCounts proj ops hstep hinit]
  exact (hp.map _).sum_eq

theorem sumVals_foldl (proj : AggState → Counter) (ops : Row → List (String × ℕ))
    (hstep : ∀ st r, proj (stepRow st r) = mergeC (proj st) (ops r))
    (rows : List Row) (st : AggState) :
    sumVals (proj (rows.foldl stepRow st))
      = sumVals (proj st) + (rows.map fun r => ((ops r).map Prod.snd).sum).sum := by
  induction rows generalizing st with
  | nil => simp
  | cons r rest ih =>
    rw [List.foldl_cons, ih, hstep, sumVals_mergeC]
    simp [Nat.add_assoc]

theorem sumVals_accCounts (proj : AggState → Counter) (ops : Row → List (String × ℕ))
    (hstep : ∀ st r, proj (stepRow st r) = mergeC (proj st) (ops r))
    (hinit : proj initAgg = [])
    (rows : List Row) :
    sumVals (proj (accCounts rows)) = (rows.map fun r => ((ops r).map Prod.snd).sum).sum := by
  have h := sumVals_foldl proj ops hstep rows initAgg
  rw [accCounts] at *
  rw [h, hinit]
  simp [sumVals]

/-! ## Well-formed counters -/

/-- A counter is well formed when its keys are distinct and every stored
count is positive; every counter built by the aggregator is. -/
def goodC (c : Counter) : Prop := (keysOf c).Nodup ∧ ∀ kv ∈ c, 0 < kv.2

theorem goodC_nil : goodC [] := by simp [goodC, keysOf]

theorem goodC_bumpBy (c : Counter) (k : String) (n : ℕ) (hc : goodC c) (hn : 0 < n) :
    goodC (bumpBy c k n) := by
  induction c with
  | nil => simpa [bumpBy, goodC, keysOf] using hn
  | cons kv rest ih =>
    obtain ⟨hnd, hpos⟩ := hc
    simp only [keysOf, List.map_cons, List.nodup_cons] at hnd
    by_cases h : kv.1 = k
    · refine ⟨?_, ?_⟩
      · simpa [bumpBy, h, keysOf, List.nodup_cons] using hnd
      · intro x hx
        rw [bumpBy, if_pos h] at hx
        rcases List.mem_cons.mp hx with rfl | hx2
        · have := hpos kv (List.mem_cons_self kv rest)
          simpa using Nat.lt_of_lt_of_le this (Nat.le_add_right _ _)
        · exact hpos x (List.mem_cons_of_mem kv hx2)
    · have hrest : goodC rest := ⟨hnd.2, fun x hx => hpos x (List.mem_cons_of_mem kv hx)⟩
      obtain ⟨ih1, ih2⟩ := ih hrest
      refine ⟨?_, ?_⟩
      · rw [bumpBy, if_neg h]
        simp only [keysOf, List.map_cons, List.nodup_cons]
        refine ⟨?_, ih1⟩
        intro hmem
        rcases (mem_keysOf_bumpBy rest k kv.1 n).mp hmem with h2 | h2
        · exact hnd.1 h2
        · exact h h2
      · intro x hx
        rw [bumpBy, if_neg h] at hx
        rcases List.mem_cons.mp hx with rfl | hx2
        · exact hpos x (List.mem_cons_self x rest)
        · exact ih2 x hx2

theorem goodC_mergeC (ops : List (String × ℕ)) (c : Counter) (hc : goodC c)
    (hops : ∀ kv ∈ ops, 0 < kv.2) : goodC (mergeC c ops) := by
  induction ops generalizing c with
  | nil => exact hc
  | cons kv rest ih =>
    rw [mergeC_cons]
    exact ih (bumpBy c kv.1 kv.2)
      (goodC_bumpBy c kv.1 kv.2 hc (hops kv (List.mem_cons_self kv rest)))
      (fun x hx => hops x (List.mem_cons_of_mem kv hx))

theorem goodC_foldl (proj : AggState → Counter) (ops : Row → List (String × ℕ))
    (hstep : ∀ st r, proj (stepRow st r) = mergeC (proj st) (ops r))
    (hops : ∀ r kv, kv ∈ ops r → 0 < kv.2)
    (rows : List Row) (st : AggState) (hst : goodC (proj st)) :
    goodC (proj (rows.foldl stepRow st)) := by
  induction rows generalizing st with
  | nil => exact hst
  | cons r rest ih =>
    rw [List.foldl_cons]
    refine ih (stepRow st r) ?_
    rw [hstep]
    exact goodC_mergeC (ops r) (proj st) hst (hops r)

theorem goodC_accCounts (proj : AggState → Counter) (ops : Row → List (String × ℕ))
    (hstep : ∀ st r, proj (stepRow st r) = mergeC (proj st) (ops r))
    (hinit : proj initAgg = [])
    (hops : ∀ r kv, kv ∈ ops r → 0 < kv.2)
    (rows : List Row) : goodC (proj (accCounts rows)) := by
  refine goodC_foldl proj ops hstep hops rows initAgg ?_
  rw [hinit]
  exact goodC_nil

theorem labelOps_pos (r : Row) : ∀ kv ∈ labelOps r, 0 < kv.2 := by
  unfold labelOps
  split
  · simp
  · simp

theorem ratingOps_pos (r : Row) : ∀ kv ∈ ratingOps r, 0 < kv.2 := by
  unfold ratingOps
  split
  · simp
  · simp

theorem stateOps_pos (r : Row) : ∀ kv ∈ stateOps r, 0 < kv.2 := by
  unfold stateOps
  split
  · simp
  · simp

theorem bucketOps_pos (r : Row) : ∀ kv ∈ bucketOps r, 0 < kv.2 := by
  unfold bucketOps
  split
  · intro kv hkv
    rcases List.mem_filterMap.mp hkv with ⟨a, _, ha⟩
    by_cases h : (a.2.any fun v => strIn v (pyLower (procText r))) = true
    · rw [if_pos h] at ha
      cases ha
      simp
    · rw [if_neg h] at ha
      cases ha
  · simp

theorem termOps_pos (r : Row) : ∀ kv ∈ termOps r, 0 < kv.2 := by
  unfold termOps
  split
  · intro kv hkv
    rcases List.mem_map.mp hkv with ⟨w, _, hw⟩
    cases hw
    simp
  · simp

/-! ## Counters that agree as maps are permutations of each other -/

theorem lookupN_eq_of_mem (c : Counter) (hnd : (keysOf c).Nodup)
    (kv : String × ℕ) (h : kv ∈ c) : lookupN c kv.1 = kv.2 := by
  induction c with
  | nil => cases h
  | cons kv0 rest ih =>
    simp only [keysOf, List.map_cons, List.nodup_cons] at hnd
    rcases List.mem_cons.mp h with rfl | h2
    · simp [lookupN]
    · have hne : kv0.1 ≠ kv.1 := by
        intro he
        exact hnd.1 (he ▸ List.mem_map.mpr ⟨kv, h2, rfl⟩)
      simp only [lookupN, if_neg hne]
      exact ih hnd.2 h2

theorem mem_of_lookupN (c : Counter) (k : String) (v : ℕ)
    (h : lookupN c k = v) (hv : v ≠ 0) : (k, v) ∈ c := by
  induction c with
  | nil => exact absurd h.symm hv
  | cons kv rest ih =>
    by_cases h2 : kv.1 = k
    · rw [lookupN, if_pos h2] at h
      have : kv = (k, v) := by
        obtain ⟨k0, v0⟩ := kv
        simp only at h2 h
        rw [h2, h]
      exact this ▸ List.mem_cons_self kv rest
    · rw [lookupN, if_neg h2] at h
      exact List.mem_cons_of_mem kv (ih h)

theorem counter_perm (c1 c2 : Counter) (h1 : goodC c1) (h2 : goodC c2)
    (he : counterEq c1 c2) : c1.Perm c2 := by
  have hn1 : c1.Nodup := List.Nodup.of_map Prod.fst h1.1
  have hn2 : c2.Nodup := List.Nodup.of_map Prod.fst h2.1
  rw [List.perm_ext_iff_of_nodup hn1 hn2]
  intro a
  constructor
  · intro h
    have hl : lookupN c1 a.1 = a.2 := lookupN_eq_of_mem c1 h1.1 a h
    have hv : a.2 ≠ 0 := Nat.pos_iff_ne_zero.mp (h1.2 a h)
    have : lookupN c2 a.1 = a.2 := (he a.1) ▸ hl
    have := mem_of_lookupN c2 a.1 a.2 this hv
    simpa using this
  · intro h
    have hl : lookupN c2 a.1 = a.2 := lookupN_eq_of_mem c2 h2.1 a h
    have hv : a.2 ≠ 0 := Nat.pos_iff_ne_zero.mp (h2.2 a h)
    have : lookupN c1 a.1 = a.2 := (he a.1).symm ▸ hl
    have := mem_of_lookupN c1 a.1 a.2 this hv
    simpa using this

end M

end CareSense

/-! ## The `(-count, key)` sort order -/

namespace CareSense

theorem strLe_total (x : List Char) : ∀ y, strLe x y = true ∨ strLe y x = true := by
  induction x with
  | nil => intro y; left; rfl
  | cons a as ih =>
    intro y
    cases y with
    | nil => right; rfl
    | cons b bs =>
      rcases lt_trichotomy a b with h | h | h
      · left; simp [strLe, h]
      · subst h
        rcases ih bs with h2 | h2
        · left; simp [strLe, h2]
        · right; simp [strLe, h2]
      · right; simp [strLe, h]

theorem strLe_trans (x : List Char) :
    ∀ y z, strLe x y = true → strLe y z = true → strLe x z = true := by
  induction x with
  | nil => intro y z _ _; rfl
  | cons a as ih =>
    intro y z h1 h2
    cases y with
    | nil => simp [strLe] at h1
    | cons b bs =>
      cases z with
      | nil => simp [strLe] at h2
      | cons c cs =>
        simp only [strLe, Bool.or_eq_true, Bool.and_eq_true, decide_eq_true_eq] at h1 h2 ⊢
        rcases h1 with h1 | ⟨hab, h1⟩
        · rcases h2 with h2 | ⟨hbc, h2⟩
          · exact Or.inl (lt_trans h1 h2)
          · exact Or.inl (hbc ▸ h1)
        · rcases h2 with h2 | ⟨hbc, h2⟩
          · exact Or.inl (hab ▸ h2)
          · exact Or.inr ⟨hab.trans hbc, ih bs cs h1 h2⟩

theorem strLe_antisymm (x : List Char) :
    ∀ y, strLe x y = true → strLe y x = true → x = y := by
  induction x with
  | nil =>
    intro y _ h2
    cases y with
    | nil => rfl
    | cons b bs => simp [strLe] at h2
  | cons a as ih =>
    intro y h1 h2
    cases y with
    | nil => simp [strLe] at h1
    | cons b bs =>
      simp only [strLe, Bool.or_eq_true, Bool.and_eq_true, decide_eq_true_eq] at h1 h2
      rcases h1 with h1 | ⟨hab, hle1⟩
      · rcases h2 with h2 | ⟨hba, _⟩
        · exact absurd h2 (lt_asymm h1)
        · exact absurd (hba ▸ h1) (lt_irrefl b)
      · rcases h2 with h2 | ⟨_, hle2⟩
        · exact absurd (hab ▸ h2) (lt_irrefl b)
        · rw [hab, ih bs hle1 hle2]

theorem strLt_of_strLe_of_ne (x : List Char) :
    ∀ y, strLe x y = true → x ≠ y → strLt x y = true := by
  induction x with
  | nil =>
    intro y _ hne
    cases y with
    | nil => exact absurd rfl hne
    | cons b bs => rfl
  | cons a as ih =>
    intro y h1 hne
    cases y with
    | nil => simp [strLe] at h1
    | cons b bs =>
      simp only [strLe, Bool.or_eq_true, Bool.and_eq_true, decide_eq_true_eq] at h1
      simp only [strLt, Bool.or_eq_true, Bool.and_eq_true, decide_eq_true_eq]
      rcases h1 with h1 | ⟨hab, hle⟩
      · exact Or.inl h1
      · refine Or.inr ⟨hab, ih bs hle ?_⟩
        intro he
        exact hne (by rw [hab, he])

namespace M

theorem leKV_total (a b : String × ℕ) : leKV a b = true ∨ leKV b a = true := by
  unfold leKV
  rcases lt_trichotomy a.2 b.2 with h | h | h
  · right; simp [h]
  · rcases strLe_total a.1.data b.1.data with h2 | h2
    · left; simp [h, h2]
    · right; simp [h, h2]
  · left; simp [h]

theorem leKV_trans (a b c : String × ℕ) (h1 : leKV a b = true)
    (h2 : leKV b c = true) : leKV a c = true := by
  unfold leKV at h1 h2 ⊢
  simp only [Bool.or_eq_true, Bool.and_eq_true, decide_eq_true_eq] at h1 h2 ⊢
  rcases h1 with h1 | ⟨he1, hs1⟩
  · rcases h2 with h2 | ⟨he2, _⟩
    · exact Or.inl (lt_trans h2 h1)
    · exact Or.inl (he2 ▸ h1)
  · rcases h2 with h2 | ⟨he2, hs2⟩
    · exact Or.inl (he1 ▸ h2)
    · exact Or.inr ⟨he1.trans he2, strLe_trans _ _ _ hs1 hs2⟩

theorem leKV_antisymm (a b : String × ℕ) (h1 : leKV a b = true)
    (h2 : leKV b a = true) : a = b := by
  unfold leKV at h1 h2
  simp only [Bool.or_eq_true, Bool.and_eq_true, decide_eq_true_eq] at h1 h2
  rcases h1 with h1 | ⟨he1, hs1⟩
  · rcases h2 with h2 | ⟨he2, _⟩
    · exact absurd h2 (lt_asymm h1)
    · exact absurd (he2 ▸ h1) (lt_irrefl a.2)
  · rcases h2 with h2 | ⟨_, hs2⟩
    · exact absurd (he1 ▸ h2) (lt_irrefl a.2)
    · have hk : a.1 = b.1 := strDataEq (strLe_antisymm _ _ hs1 hs2)
      obtain ⟨a1, a2⟩ := a
      obtain ⟨b1, b2⟩ := b
      simp only at hk he1
      rw [hk, he1]

theorem insertionSort_leKV_congr (c1 c2 : Counter) (h : c1.Perm c2) :
    List.insertionSort (fun a b => leKV a b = true) c1
      = List.insertionSort (fun a b => leKV a b = true) c2 := by
  haveI ha : IsAntisymm (String × ℕ) (fun a b => leKV a b = true) :=
    ⟨fun a b => leKV_antisymm a b⟩
  haveI ht : IsTotal (String × ℕ) (fun a b => leKV a b = true) :=
    ⟨fun a b => leKV_total a b⟩
  haveI hr : IsTrans (String × ℕ) (fun a b => leKV a b = true) :=
    ⟨fun a b c => leKV_trans a b c⟩
  exact @List.eq_of_perm_of_sorted (String × ℕ) (fun a b => leKV a b = true) ha _ _
    (((List.perm_insertionSort _ c1).trans h).trans
      (List.perm_insertionSort _ c2).symm)
    (List.sorted_insertionSort _ c1) (List.sorted_insertionSort _ c2)

theorem top_k_congr (c1 c2 : Counter) (h : c1.Perm c2) (k : ℕ) :
    top_k c1 k = top_k c2 k := by
  unfold top_k
  rw [insertionSort_leKV_congr c1 c2 h]

end M

end CareSense

/-! ## Properties of the strongest-segment scan -/

namespace CareSense

namespace V1

theorem foldl_pickSeg_init_le (l : List Segment) (b : Segment) :
    |b.score| ≤ |(l.foldl pickSeg b).score| := by
  induction l generalizing b with
  | nil => exact le_refl _
  | cons a rest ih =>
    rw [List.foldl_cons]
    unfold pickSeg
    by_cases h : |a.score| > |b.score|
    · rw [if_pos h]
      exact le_trans (le_of_lt h) (ih a)
    · rw [if_neg h]
      exact ih b

theorem foldl_pickSeg_mem_le (l : List Segment) (b c : Segment) (hc : c ∈ l) :
    |c.score| ≤ |(l.foldl pickSeg b).score| := by
  induction l generalizing b with
  | nil => cases hc
  | cons a rest ih =>
    rw [List.foldl_cons]
    rcases List.mem_cons.mp hc with rfl | h2
    · unfold pickSeg
      by_cases h : |c.score| > |b.score|
      · rw [if_pos h]
        exact foldl_pickSeg_init_le rest c
      · rw [if_neg h]
        exact le_trans (not_lt.mp h) (foldl_pickSeg_init_le rest b)
    · exact ih (pickSeg b a) h2

theorem foldl_pickSeg_mem (l : List Segment) (b : Segment) :
    l.foldl pickSeg b ∈ b :: l := by
  induction l generalizing b with
  | nil => simp
  | cons a rest ih =>
    rw [List.foldl_cons]
    rcases List.mem_cons.mp (ih (pickSeg b a)) with h2 | h2
    · rw [h2]
      unfold pickSeg
      by_cases h : |a.score| > |b.score|
      · rw [if_pos h]
        exact List.mem_cons_of_mem b (List.mem_cons_self a rest)
      · rw [if_neg h]
        exact List.mem_cons_self b _
    · exact List.mem_cons_of_mem b (List.mem_cons_of_mem a h2)

theorem foldl_pickSeg_eq_or_lt (l : List Segment) (b : Segment) :
    l.foldl pickSeg b = b ∨ |b.score| < |(l.foldl pickSeg b).score| := by
  induction l generalizing b with
  | nil => exact Or.inl rfl
  | cons a rest ih =>
    rw [List.foldl_cons]
    unfold pickSeg
    by_cases h : |a.score| > |b.score|
    · rw [if_pos h]
      exact Or.inr (lt_of_lt_of_le h (foldl_pickSeg_init_le rest a))
    · rw [if_neg h]
      exact ih b

theorem foldl_pickSeg_first (l : List Segment) (b : Segment)
    (h : |b.score| < |(l.foldl pickSeg b).score|) :
    ∃ l1 c l2, l = l1 ++ c :: l2 ∧ l.foldl pickSeg b = c ∧
      ∀ d ∈ b :: l1, |d.score| < |c.score| := by
  induction l generalizing b with
  | nil => exact absurd h (lt_irrefl _)
  | cons a rest ih =>
    rw [List.foldl_cons] at h ⊢
    by_cases ha : |a.score| > |b.score|
    · have hba : pickSeg b a = a := by
        unfold pickSeg
        rw [if_pos ha]
      rw [hba] at h ⊢
      rcases foldl_pickSeg_eq_or_lt rest a with h2 | h2
      · refine ⟨[], a, rest, rfl, h2, ?_⟩
        intro d hd
        rcases List.mem_cons.mp hd with rfl | hd2
        · exact ha
        · cases hd2
      · obtain ⟨l1, c, l2, hdec, hres, hall⟩ := ih a h2
        refine ⟨a :: l1, c, l2, by rw [hdec]; rfl, hres, ?_⟩
        intro d hd
        rcases List.mem_cons.mp hd with rfl | hd2
        · exact lt_trans ha (hall a (List.mem_cons_self a l1))
        · exact hall d hd2
    · have hbb : pickSeg b a = b := by
        unfold pickSeg
        rw [if_neg ha]
      rw [hbb] at h ⊢
      obtain ⟨l1, c, l2, hdec, hres, hall⟩ := ih b h
      refine ⟨a :: l1, c, l2, by rw [hdec]; rfl, hres, ?_⟩
      intro d hd
      rcases List.mem_cons.mp hd with rfl | hd2
      · exact hall d (List.mem_cons_self d l1)
      · rcases List.mem_cons.mp hd2 with rfl | hd3
        · exact lt_of_le_of_lt (not_lt.mp ha) (hall b (List.mem_cons_self b l1))
        · exact hall d (List.mem_cons_of_mem b hd3)

theorem mem_windowPairs (n w i : ℕ) :
    (w, i) ∈ windowPairs n ↔ 1 ≤ w ∧ w ≤ min 3 n ∧ i + w ≤ n := by
  unfold windowPairs
  simp only [List.mem_flatten, List.mem_map, List.mem_range]
  constructor
  · rintro ⟨l, ⟨j, hj, rfl⟩, hmem⟩
    rcases List.mem_map.mp hmem with ⟨i2, hi2, heq⟩
    rw [List.mem_range] at hi2
    injection heq with hw hi
    subst hw
    subst hi
    refine ⟨Nat.succ_le_succ (Nat.zero_le j), by omega, by omega⟩
  · rintro ⟨h1, h2, h3⟩
    have hw : w ≤ 3 ∧ w ≤ n := ⟨le_trans h2 (min_le_left 3 n), le_trans h2 (min_le_right 3 n)⟩
    refine ⟨(List.range (n - (w - 1))).map fun i2 => (w - 1 + 1, i2), ⟨w - 1, by omega, rfl⟩, ?_⟩
    refine List.mem_map.mpr ⟨i, List.mem_range.mpr (by omega), ?_⟩
    have : w - 1 + 1 = w := by omega
    rw [this]

theorem bestSegment_spec (ss : List (String × ℚ)) :
    (ss.length = 0 → bestSegment ss = ⟨0, 0, 0, ""⟩)
  ∧ (0 < ss.length →
      (bestSegment ss).start ≤ (bestSegment ss).endIdx
      ∧ (bestSegment ss).endIdx < ss.length
      ∧ (bestSegment ss).endIdx + 1 - (bestSegment ss).start ≤ min 3 ss.length)
  ∧ (∀ w i, 1 ≤ w → w ≤ 3 → i + w ≤ ss.length →
      |(((ss.drop i).take w).map Prod.snd).sum| ≤ |(bestSegment ss).score|)
  ∧ (0 < |(bestSegment ss).score| →
      ∃ l1 c l2, (windowPairs ss.length).map (segOf ss) = l1 ++ c :: l2
        ∧ bestSegment ss = c ∧ ∀ d ∈ l1, |d.score| < |c.score|) := by
  refine ⟨?_, ?_, ?_, ?_⟩
  · intro h
    unfold bestSegment
    rw [h]
    rfl
  · intro hn
    rcases List.mem_cons.mp
      (foldl_pickSeg_mem ((windowPairs ss.length).map (segOf ss)) initSeg) with hb | hb
    · unfold bestSegment
      rw [hb]
      refine ⟨le_refl 0, hn, ?_⟩
      have : 1 ≤ min 3 ss.length := le_min (by omega) hn
      simpa [initSeg] using this
    · rcases List.mem_map.mp hb with ⟨wi, hwi, heq⟩
      obtain ⟨w, i⟩ := wi
      rw [mem_windowPairs] at hwi
      obtain ⟨h1, h2, h3⟩ := hwi
      have hw3 : w ≤ 3 := le_trans h2 (min_le_left 3 ss.length)
      unfold bestSegment
      rw [← heq]
      unfold segOf
      simp only
      refine ⟨by omega, by omega, ?_⟩
      have : i + w - 1 + 1 - i = w := by omega
      rw [this]
      exact h2
  · intro w i h1 h2 h3
    have hwi : (w, i) ∈ windowPairs ss.length :=
      (mem_windowPairs ss.length w i).mpr ⟨h1, Nat.le_min.mpr ⟨h2, by omega⟩, h3⟩
    have hmem : segOf ss (w, i) ∈ (windowPairs ss.length).map (segOf ss) :=
      List.mem_map.mpr ⟨(w, i), hwi, rfl⟩
    have := foldl_pickSeg_mem_le ((windowPairs ss.length).map (segOf ss)) initSeg _ hmem
    exact this
  · intro hpos
    have hinit : |initSeg.score| = 0 := by
      simp [initSeg]
    have h0 : |initSeg.score| < |(bestSegment ss).score| := by
      rw [hinit]
      exact hpos
    obtain ⟨l1, c, l2, hdec, hres, hall⟩ :=
      foldl_pickSeg_first ((windowPairs ss.length).map (segOf ss)) initSeg h0
    exact ⟨l1, c, l2, hdec, hres, fun d hd => hall d (List.mem_cons_of_mem initSeg hd)⟩

end V1

end CareSense

/-! ## Whitespace facts, analyzer projections, and sortedness of `top_k` -/

namespace CareSense

theorem lowerChar_space {c : Char} (h : pyIsSpace c = true) : lowerChar c = c := by
  unfold pyIsSpace at h
  simp only [Bool.or_eq_true, beq_iff_eq] at h
  rcases h with ((((h | h) | h) | h) | h) | h <;> subst h <;> decide

theorem pyLower_of_space {s : String} (h : ∀ c ∈ s.data, pyIsSpace c = true) :
    pyLower s = s := by
  unfold pyLower
  have h2 : s.data.map lowerChar = s.data := by
    rw [List.map_congr_left fun a ha => lowerChar_space (h a ha)]
    simp
  rw [h2]

theorem pyStrip_of_space {s : String} (h : ∀ c ∈ s.data, pyIsSpace c = true) :
    pyStrip s = "" := by
  unfold pyStrip
  rw [List.dropWhile_eq_nil_iff.mpr h]
  rfl

theorem splitWsGo_of_space (l : List Char) (h : ∀ c ∈ l, pyIsSpace c = true) :
    splitWsGo [] l = [] := by
  induction l with
  | nil => rfl
  | cons c rest ih =>
    rw [splitWsGo, if_pos (h c (List.mem_cons_self c rest))]
    simp only [List.isEmpty_nil, if_pos]
    exact ih fun a ha => h a (List.mem_cons_of_mem c ha)

theorem mem_of_getLastQ {α : Type} {l : List α} {a : α} (h : l.getLast? = some a) :
    a ∈ l := by
  induction l with
  | nil => cases h
  | cons x t ih =>
    cases t with
    | nil =>
      simp only [List.getLast?_singleton, Option.some.injEq] at h
      simp [h]
    | cons y t2 =>
      rw [List.getLast?_cons_cons] at h
      exact List.mem_cons_of_mem x (ih h)

theorem pyEndsWith_space {s : String} (h : ∀ c ∈ s.data, pyIsSpace c = true)
    (c : Char) (hc : pyIsSpace c = false) : pyEndsWith s c = false := by
  unfold pyEndsWith
  cases hl : s.data.getLast? with
  | none => rfl
  | some d =>
    have hd := h d (mem_of_getLastQ hl)
    rw [beq_eq_false_iff_ne]
    intro he
    injection he with he2
    rw [he2] at hd
    rw [hd] at hc
    cases hc

namespace V1

theorem analyze_text_label_eq (t : String) (lex : Lexicon) :
    (analyze_text t lex).label =
      if (analyze_text t lex).total_score > 0.5 then "positive"
      else if (analyze_text t lex).total_score < -0.5 then "negative"
      else "neutral" := rfl

theorem analyze_text_sentence_scores (t : String) (lex : Lexicon) :
    (analyze_text t lex).sentence_scores = sentScoresOf t lex := rfl

theorem analyze_text_total (t : String) (lex : Lexicon) :
    (analyze_text t lex).total_score = ((sentScoresOf t lex).map Prod.snd).sum := rfl

theorem analyze_text_strongest (t : String) (lex : Lexicon) :
    (analyze_text t lex).strongest_segment = bestSegment (sentScoresOf t lex) := rfl

theorem analyze_text_of_space (s : String) (lex : Lexicon)
    (h : ∀ c ∈ s.data, pyIsSpace c = true) :
    analyze_text s lex = ⟨0, "neutral", [], ("", 0), ("", 0), ⟨0, 0, 0, ""⟩⟩ := by
  have hnorm : normalize s = "" := by
    unfold normalize
    rw [pyLower_of_space h]
    exact pyStrip_of_space h
  have hsent : sentScoresOf s lex = [] := by
    unfold sentScoresOf
    rw [hnorm]
    rfl
  unfold analyze_text
  rw [hsent]
  have hpos : ¬((0 : ℚ) > 0.5) := by norm_num
  have hneg : ¬((0 : ℚ) < -0.5) := by norm_num
  simp only [List.map_nil, List.sum_nil, hpos, hneg, if_false, ite_false]
  rfl

end V1

namespace V2

theorem analyze_review_eq (t : String) :
    analyze_review t =
      (if reviewTotal t ≥ 0.5 then "positive"
       else if reviewTotal t ≤ -0.5 then "negative" else "neutral",
       round3 (reviewTotal t)) := rfl

theorem simple_tokenize_of_space (s : String)
    (h : ∀ c ∈ s.data, pyIsSpace c = true) : simple_tokenize s = [] := by
  unfold simple_tokenize
  rw [pyLower_of_space h]
  unfold pySplitWs
  rw [splitWsGo_of_space s.data h]
  rfl

theorem round3_zero : round3 0 = 0 := by
  unfold round3 roundHalfEven
  norm_num

theorem reviewTotal_of_space (s : String)
    (h : ∀ c ∈ s.data, pyIsSpace c = true) : reviewTotal s = 0 := by
  unfold reviewTotal
  rw [simple_tokenize_of_space s h,
    pyEndsWith_space h '!' (by decide), pyEndsWith_space h '?' (by decide)]
  rfl

theorem analyze_review_of_space (s : String)
    (h : ∀ c ∈ s.data, pyIsSpace c = true) : analyze_review s = ("neutral", 0) := by
  rw [analyze_review_eq, reviewTotal_of_space s h]
  have h1 : ¬((0 : ℚ) ≥ 0.5) := by norm_num
  have h2 : ¬((0 : ℚ) ≤ -0.5) := by norm_num
  rw [if_neg h1, if_neg h2, round3_zero]

end V2

theorem top_k_sorted_aux (d : M.Counter) :
    (List.insertionSort (fun a b => M.leKV a b = true) d).Pairwise
      (fun a b => M.leKV a b = true) := by
  haveI ht : IsTotal (String × ℕ) (fun a b => M.leKV a b = true) := ⟨M.leKV_total⟩
  haveI hr : IsTrans (String × ℕ) (fun a b => M.leKV a b = true) :=
    ⟨fun a b c => M.leKV_trans a b c⟩
  exact List.sorted_insertionSort _ d

theorem sum_map_ite_one {α : Type} (p : α → Prop) [DecidablePred p] (l : List α) :
    (l.map fun r => if p r then 1 else 0).sum = l.countP fun r => decide (p r) := by
  induction l with
  | nil => rfl
  | cons a t ih =>
    simp only [List.map_cons, List.sum_cons, List.countP_cons, ih]
    by_cases h : p a
    · simp [h, Nat.add_comm]
    · simp [h]

end CareSense

/-! ## The claims -/

namespace CareSense

theorem analyze_review_fst (t : String) :
    (V2.analyze_review t).1 =
      if V2.reviewTotal t ≥ 0.5 then "positive"
      else if V2.reviewTotal t ≤ -0.5 then "negative" else "neutral" := by
  rw [V2.analyze_review_eq]

/-- Claim C9: for every input text, the score returned by `analyze_review`
is the accumulated running total rounded to three decimals, while the
returned label is thresholded against the unrounded total. -/
theorem claim_C9 (text : String) :
    (V2.analyze_review text).2 = V2.round3 (V2.reviewTotal text)
  ∧ (V2.analyze_review text).1 =
      (if V2.reviewTotal text ≥ 0.5 then "positive"
       else if V2.reviewTotal text ≤ -0.5 then "negative" else "neutral") := by
  rw [V2.analyze_review_eq]
  exact ⟨rfl, rfl⟩

/-- Claim C10: `label_to_color` is total: it always returns one of four
fixed hex colors, maps the three labels to their table entries, and maps
every other string to the default `"#6b7280"`. -/
theorem claim_C10 (s : String) :
    V2.label_to_color s ∈ ["#22c55e", "#f59e0b", "#ef4444", "#6b7280"]
  ∧ V2.label_to_color "positive" = "#22c55e"
  ∧ V2.label_to_color "neutral" = "#f59e0b"
  ∧ V2.label_to_color "negative" = "#ef4444"
  ∧ (s ≠ "positive" → s ≠ "neutral" → s ≠ "negative" →
      V2.label_to_color s = "#6b7280") := by
  have hval : ∀ t : String, V2.label_to_color t =
      if "positive" = t then "#22c55e"
      else if "neutral" = t then "#f59e0b"
      else if "negative" = t then "#ef4444" else "#6b7280" := by
    intro t
    unfold V2.label_to_color getD
    by_cases h1 : ("positive" : String) = t
    · simp [lookupA, h1]
    · by_cases h2 : ("neutral" : String) = t
      · simp [lookupA, h1, h2]
      · by_cases h3 : ("negative" : String) = t
        · simp [lookupA, h1, h2, h3]
        · simp [lookupA, h1, h2, h3]
  refine ⟨?_, by decide, by decide, by decide, ?_⟩
  · rw [hval s]
    split_ifs <;> simp
  · intro h1 h2 h3
    rw [hval s, if_neg (fun he => h1 he.symm), if_neg (fun he => h2 he.symm),
      if_neg (fun he => h3 he.symm)]

/-- Witness for C10 at a string outside the table. -/
theorem claim_C10_witness : V2.label_to_color "unknown" = "#6b7280" :=
  (claim_C10 "unknown").2.2.2.2 (by decide) (by decide) (by decide)

/-- Claim C7: analyzing an empty or whitespace-only string yields label
neutral and total score 0, with an empty sentence-score list and an empty
zero-score strongest segment, for any lexicon. -/
theorem claim_C7 (s : String) (lex : V1.Lexicon)
    (h : ∀ c ∈ s.data, pyIsSpace c = true) :
    V1.analyze_text s lex = ⟨0, "neutral", [], ("", 0), ("", 0), ⟨0, 0, 0, ""⟩⟩
  ∧ V2.analyze_review s = ("neutral", 0) :=
  ⟨V1.analyze_text_of_space s lex h, V2.analyze_review_of_space s h⟩

/-- Witness for C7 on a whitespace-only string. -/
theorem claim_C7_witness :
    V1.analyze_text "  " V1.LEXICON = ⟨0, "neutral", [], ("", 0), ("", 0), ⟨0, 0, 0, ""⟩⟩
  ∧ V2.analyze_review "  " = ("neutral", 0) :=
  claim_C7 "  " V1.LEXICON (by decide)

/-- Claim C6: under the lookahead policy, a negator with a following token
contributes the negated polarity of that token and the scan advances past
both; with lexicon `{"good": 1.5}` the tokens of `"not good"` score `-1.5`,
and so does the whole analysis of `"not good"`. -/
theorem claim_C6 (lex : V1.Lexicon) (t nxt : String) (rest : List String)
    (h : t ∈ V1.NEGATIONS) :
    V1.score_tokens (t :: nxt :: rest) lex
      = -getD lex nxt 0 + V1.score_tokens rest lex
  ∧ V1.score_tokens ["not", "good"] [("good", 1.5)] = -1.5
  ∧ (V1.analyze_text "not good" [("good", 1.5)]).total_score = -1.5 := by
  have hs : V1.score_tokens ["not", "good"] [("good", 1.5)] = -1.5 := by
    norm_num [V1.score_tokens, V1.NEGATIONS, getD, lookupA]
  refine ⟨?_, hs, ?_⟩
  · rw [V1.score_tokens, if_pos h]
  · have hsent : V1.split_sentences (V1.normalize "not good") = ["not good"] := by
      decide
    have htok : V1.drop_stopwords (V1.tokenize (V1.remove_punct "not good"))
        = ["not", "good"] := by decide
    rw [V1.analyze_text_total]
    unfold V1.sentScoresOf
    rw [hsent]
    simp only [List.map_cons, List.map_nil, List.sum_cons, List.sum_nil, htok, hs]
    norm_num

/-- Witness for C6 at the concrete negator instance. -/
theorem claim_C6_witness :
    V1.score_tokens ("not" :: "good" :: []) [("good", 1.5)]
      = -getD [("good", 1.5)] "good" 0 + V1.score_tokens [] [("good", 1.5)] :=
  (claim_C6 [("good", 1.5)] "not" "good" [] (by decide)).1

/-- Claim C5 (as it holds of the code): for a frequency mapping (distinct
keys) the Top-K selector returns at most `k` entries, strictly sorted by
descending count with ties broken by ascending key, with no duplicate
keys. -/
theorem claim_C5 (d : M.Counter) (k : ℕ) (hnd : (d.map Prod.fst).Nodup) :
    (M.top_k d k).length ≤ k
  ∧ (M.top_k d k).Pairwise
      (fun a b => b.2 < a.2 ∨ (a.2 = b.2 ∧ strLt a.1.data b.1.data = true))
  ∧ ((M.top_k d k).map Prod.fst).Nodup := by
  have hperm := List.perm_insertionSort (fun a b => M.leKV a b = true) d
  have hkeysnd :
      ((List.insertionSort (fun a b => M.leKV a b = true) d).map Prod.fst).Nodup :=
    ((hperm.map Prod.fst).nodup_iff).mpr hnd
  have hsorted := top_k_sorted_aux d
  have hkeysPW : (List.insertionSort (fun a b => M.leKV a b = true) d).Pairwise
      (fun a b => a.1 ≠ b.1) := List.pairwise_map.mp hkeysnd
  have hstrict : (List.insertionSort (fun a b => M.leKV a b = true) d).Pairwise
      (fun a b => b.2 < a.2 ∨ (a.2 = b.2 ∧ strLt a.1.data b.1.data = true)) := by
    refine (hsorted.and hkeysPW).imp ?_
    rintro a b ⟨hle, hne⟩
    unfold M.leKV at hle
    simp only [Bool.or_eq_true, Bool.and_eq_true, decide_eq_true_eq] at hle
    rcases hle with h2 | ⟨he, hsle⟩
    · exact Or.inl h2
    · refine Or.inr ⟨he, strLt_of_strLe_of_ne _ _ hsle ?_⟩
      intro hdata
      exact hne (strDataEq hdata)
  refine ⟨?_, ?_, ?_⟩
  · unfold M.top_k
    rw [List.length_take]
    exact min_le_left _ _
  · exact List.Pairwise.sublist (List.take_sublist k _) hstrict
  · exact List.Sublist.nodup (List.Sublist.map Prod.fst (List.take_sublist k _)) hkeysnd

/-- Witness for C5 at a concrete mapping with a count tie. -/
theorem claim_C5_witness :
    (M.top_k [("b", 2), ("a", 2), ("c", 5)] 2).length ≤ 2
  ∧ (M.top_k [("b", 2), ("a", 2), ("c", 5)] 2).Pairwise
      (fun a b => b.2 < a.2 ∨ (a.2 = b.2 ∧ strLt a.1.data b.1.data = true))
  ∧ ((M.top_k [("b", 2), ("a", 2), ("c", 5)] 2).map Prod.fst).Nodup :=
  claim_C5 [("b", 2), ("a", 2), ("c", 5)] 2 (by decide)

end CareSense

namespace CareSense

/-- Claim C1 (counterexample): the active classifier `analyze_review` labels
a total of exactly `-0.5` as negative even though that total is not
strictly below `-0.5`; the claimed strict boundary comparison fails. -/
theorem claim_C1_counterexample :
    (V2.analyze_review "wait").1 = "negative"
  ∧ V2.reviewTotal "wait" = -0.5
  ∧ ¬(V2.reviewTotal "wait" < -0.5) := by
  have ht : V2.simple_tokenize "wait" = ["wait"] := by decide
  have hend1 : pyEndsWith "wait" '!' = false := by decide
  have hend2 : pyEndsWith "wait" '?' = false := by decide
  have htot : V2.reviewTotal "wait" = -0.5 := by
    unfold V2.reviewTotal
    rw [ht, hend1, hend2]
    simp +decide only [V2.scoreLoop, V2.NEGATORS, V2.INTENSIFIERS,
      V2.DEINTENSIFIERS, V2.POLARITY, lookupA, getD, List.mem_cons,
      List.mem_singleton]
    norm_num
  refine ⟨?_, htot, by rw [htot]; norm_num⟩
  rw [analyze_review_fst, htot]
  norm_num

/-- Claim C1 (amended): the V1 analyzer `analyze_text` uses strict boundary
comparisons (positive iff total > 0.5, negative iff total < -0.5), while
the active `analyze_review` uses inclusive ones (positive iff total ≥ 0.5,
negative iff total ≤ -0.5); the two variants do not share one boundary
comparison. -/
theorem claim_C1_amended (text : String) (lex : V1.Lexicon) :
    ((V1.analyze_text text lex).label = "positive"
      ↔ (V1.analyze_text text lex).total_score > 0.5)
  ∧ ((V1.analyze_text text lex).label = "negative"
      ↔ (V1.analyze_text text lex).total_score < -0.5)
  ∧ ((V1.analyze_text text lex).label = "neutral"
      ↔ ¬((V1.analyze_text text lex).total_score > 0.5)
        ∧ ¬((V1.analyze_text text lex).total_score < -0.5))
  ∧ ((V2.analyze_review text).1 = "positive" ↔ V2.reviewTotal text ≥ 0.5)
  ∧ ((V2.analyze_review text).1 = "negative" ↔ V2.reviewTotal text ≤ -0.5)
  ∧ ((V2.analyze_review text).1 = "neutral"
      ↔ ¬(V2.reviewTotal text ≥ 0.5) ∧ ¬(V2.reviewTotal text ≤ -0.5)) := by
  refine ⟨?_, ?_, ?_, ?_, ?_, ?_⟩
  · rw [V1.analyze_text_label_eq]
    by_cases h1 : (V1.analyze_text text lex).total_score > 0.5
    · rw [if_pos h1]
      exact ⟨fun _ => h1, fun _ => rfl⟩
    · rw [if_neg h1]
      by_cases h2 : (V1.analyze_text text lex).total_score < -0.5
      · rw [if_pos h2]
        exact ⟨fun he => absurd he (by decide), fun hgt => absurd hgt h1⟩
      · rw [if_neg h2]
        exact ⟨fun he => absurd he (by decide), fun hgt => absurd hgt h1⟩
  · rw [V1.analyze_text_label_eq]
    by_cases h1 : (V1.analyze_text text lex).total_score > 0.5
    · rw [if_pos h1]
      constructor
      · intro he
        exact absurd he (by decide)
      · intro hlt
        exact absurd h1 (by linarith)
    · rw [if_neg h1]
      by_cases h2 : (V1.analyze_text text lex).total_score < -0.5
      · rw [if_pos h2]
        exact ⟨fun _ => h2, fun _ => rfl⟩
      · rw [if_neg h2]
        exact ⟨fun he => absurd he (by decide), fun hlt => absurd hlt h2⟩
  · rw [V1.analyze_text_label_eq]
    by_cases h1 : (V1.analyze_text text lex).total_score > 0.5
    · rw [if_pos h1]
      exact ⟨fun he => absurd he (by decide), fun ⟨ha, _⟩ => absurd h1 ha⟩
    · rw [if_neg h1]
      by_cases h2 : (V1.analyze_text text lex).total_score < -0.5
      · rw [if_pos h2]
        exact ⟨fun he => absurd he (by decide), fun ⟨_, hb⟩ => absurd h2 hb⟩
      · rw [if_neg h2]
        exact ⟨fun _ => ⟨h1, h2⟩, fun _ => rfl⟩
  · rw [analyze_review_fst]
    by_cases h1 : V2.reviewTotal text ≥ 0.5
    · rw [if_pos h1]
      exact ⟨fun _ => h1, fun _ => rfl⟩
    · rw [if_neg h1]
      by_cases h2 : V2.reviewTotal text ≤ -0.5
      · rw [if_pos h2]
        exact ⟨fun he => absurd he (by decide), fun hge => absurd hge h1⟩
      · rw [if_neg h2]
        exact ⟨fun he => absurd he (by decide), fun hge => absurd hge h1⟩
  · rw [analyze_review_fst]
    by_cases h1 : V2.reviewTotal text ≥ 0.5
    · rw [if_pos h1]
      constructor
      · intro he
        exact absurd he (by decide)
      · intro hle
        exact absurd h1 (by linarith)
    · rw [if_neg h1]
      by_cases h2 : V2.reviewTotal text ≤ -0.5
      · rw [if_pos h2]
        exact ⟨fun _ => h2, fun _ => rfl⟩
      · rw [if_neg h2]
        exact ⟨fun he => absurd he (by decide), fun hle => absurd hle h2⟩
  · rw [analyze_review_fst]
    by_cases h1 : V2.reviewTotal text ≥ 0.5
    · rw [if_pos h1]
      exact ⟨fun he => absurd he (by decide), fun ⟨ha, _⟩ => absurd h1 ha⟩
    · rw [if_neg h1]
      by_cases h2 : V2.reviewTotal text ≤ -0.5
      · rw [if_pos h2]
        exact ⟨fun he => absurd he (by decide), fun ⟨_, hb⟩ => absurd h2 hb⟩
      · rw [if_neg h2]
        exact ⟨fun _ => ⟨h1, h2⟩, fun _ => rfl⟩

/-- Claim C4: the strongest segment spans at most `min(3, N)` sentences,
its absolute score dominates every contiguous window of length 1 to 3, the
first-seen window wins ties (replacement only on strictly greater absolute
value), and with no sentences the segment is the empty zero-score one. -/
theorem claim_C4 (text : String) (lex : V1.Lexicon) :
    ((V1.analyze_text text lex).sentence_scores.length = 0 →
      (V1.analyze_text text lex).strongest_segment = ⟨0, 0, 0, ""⟩)
  ∧ (0 < (V1.analyze_text text lex).sentence_scores.length →
      (V1.analyze_text text lex).strongest_segment.start
        ≤ (V1.analyze_text text lex).strongest_segment.endIdx
      ∧ (V1.analyze_text text lex).strongest_segment.endIdx
        < (V1.analyze_text text lex).sentence_scores.length
      ∧ (V1.analyze_text text lex).strongest_segment.endIdx + 1
          - (V1.analyze_text text lex).strongest_segment.start
        ≤ min 3 (V1.analyze_text text lex).sentence_scores.length)
  ∧ (∀ w i, 1 ≤ w → w ≤ 3 →
      i + w ≤ (V1.analyze_text text lex).sentence_scores.length →
      |((((V1.analyze_text text lex).sentence_scores.drop i).take w).map
          Prod.snd).sum|
        ≤ |(V1.analyze_text text lex).strongest_segment.score|)
  ∧ (0 < |(V1.analyze_text text lex).strongest_segment.score| →
      ∃ l1 c l2,
        (V1.windowPairs (V1.analyze_text text lex).sentence_scores.length).map
            (V1.segOf (V1.analyze_text text lex).sentence_scores)
          = l1 ++ c :: l2
        ∧ (V1.analyze_text text lex).strongest_segment = c
        ∧ ∀ d ∈ l1, |d.score| < |c.score|) := by
  simp only [V1.analyze_text_sentence_scores, V1.analyze_text_strongest]
  exact V1.bestSegment_spec (V1.sentScoresOf text lex)

/-- Witness for C4: a two-sentence review; its strongest segment has valid
span bounds and dominates the first one-sentence window. -/
theorem claim_C4_witness :
    ((V1.analyze_text "bad. good." V1.LEXICON).strongest_segment.start
      ≤ (V1.analyze_text "bad. good." V1.LEXICON).strongest_segment.endIdx
    ∧ (V1.analyze_text "bad. good." V1.LEXICON).strongest_segment.endIdx
      < (V1.analyze_text "bad. good." V1.LEXICON).sentence_scores.length
    ∧ (V1.analyze_text "bad. good." V1.LEXICON).strongest_segment.endIdx + 1
        - (V1.analyze_text "bad. good." V1.LEXICON).strongest_segment.start
      ≤ min 3 (V1.analyze_text "bad. good." V1.LEXICON).sentence_scores.length)
  ∧ |((((V1.analyze_text "bad. good." V1.LEXICON).sentence_scores.drop 0).take 1).map
        Prod.snd).sum|
      ≤ |(V1.analyze_text "bad. good." V1.LEXICON).strongest_segment.score| :=
  ⟨(claim_C4 "bad. good." V1.LEXICON).2.1 (by decide),
   (claim_C4 "bad. good." V1.LEXICON).2.2.1 1 0 (by decide) (by decide) (by decide)⟩

end CareSense

namespace CareSense

/-- The V1 analyzer labels the single word "rude" negative. -/
theorem rude_label : (V1.analyze_text "rude" V1.LEXICON).label = "negative" := by
  have hsent : V1.split_sentences (V1.normalize "rude") = ["rude"] := by decide
  have htok : V1.drop_stopwords (V1.tokenize (V1.remove_punct "rude"))
      = ["rude"] := by decide
  have hscore : V1.score_tokens ["rude"] V1.LEXICON = -2.0 := by
    simp +decide only [V1.score_tokens, V1.LEXICON, getD, lookupA]
    norm_num
  have htot : (V1.analyze_text "rude" V1.LEXICON).total_score = -2.0 := by
    rw [V1.analyze_text_total]
    unfold V1.sentScoresOf
    rw [hsent]
    simp only [List.map_cons, List.map_nil, List.sum_cons, List.sum_nil, htok, hscore]
    norm_num
  rw [V1.analyze_text_label_eq, htot]
  norm_num

/-- A row carrying a precomputed positive label over negatively scored text. -/
def rowCex : M.Row := ⟨"rude", "", "", some "positive"⟩

/-- Claim C3 (counterexample): `accumulate_counts` ignores the precomputed
label: a row labelled positive whose text analyzes negative is counted
under "negative", not under its stored label. -/
theorem claim_C3_counterexample :
    rowCex.label = some "positive"
  ∧ M.procText rowCex ≠ ""
  ∧ (M.accCounts [rowCex]).label_counts = [("negative", 1)]
  ∧ M.lookupN (M.accCounts [rowCex]).label_counts "positive" = 0 := by
  have hproc : M.procText rowCex = "rude" := by decide
  have hrl : M.rowLabel rowCex = "negative" := by
    unfold M.rowLabel
    rw [hproc]
    exact rude_label
  have hops : M.labelOps rowCex = [("negative", 1)] := by
    unfold M.labelOps
    rw [hproc, if_neg (by decide : ¬("rude" : String) = ""), hrl]
  have hacc : (M.accCounts [rowCex]).label_counts = [("negative", 1)] := by
    show (M.stepRow M.initAgg rowCex).label_counts = _
    rw [M.stepRow_label, hops]
    rfl
  refine ⟨rfl, by decide, hacc, ?_⟩
  rw [hacc]
  decide

/-- Claim C3 (amended): the Aggregator always computes the label by running
the V1 analyzer on the stripped text; any precomputed label in the record
is ignored (the result is invariant under rewriting the stored labels),
and `label_counts` counts processed rows by their analyzer label. -/
theorem claim_C3_amended (rows : List M.Row) (g : M.Row → Option String)
    (l : String) :
    M.accumulate_counts (rows.map fun r => { r with label := g r })
      = M.accumulate_counts rows
  ∧ M.lookupN (M.accCounts rows).label_counts l
      = rows.countP fun r => decide (M.procText r ≠ "" ∧ M.rowLabel r = l) := by
  constructor
  · have hkey : ∀ (rs : List M.Row) (st : M.AggState),
        (rs.map fun r => { r with label := g r }).foldl M.stepRow st
          = rs.foldl M.stepRow st := by
      intro rs
      induction rs with
      | nil => intro st; rfl
      | cons r t ih =>
        intro st
        rw [List.map_cons, List.foldl_cons, List.foldl_cons]
        have hstep : M.stepRow st { r with label := g r } = M.stepRow st r := rfl
        rw [hstep, ih]
    unfold M.accumulate_counts M.accCounts
    rw [hkey rows M.initAgg]
  · have h := M.lookupN_accCounts M.AggState.label_counts M.labelOps
      M.stepRow_label rfl rows l
    rw [h]
    have hrow : ∀ r : M.Row, M.opsCount (M.labelOps r) l
        = if M.procText r ≠ "" ∧ M.rowLabel r = l then 1 else 0 := by
      intro r
      unfold M.labelOps M.opsCount
      by_cases h1 : M.procText r = ""
      · simp [h1]
      · by_cases h2 : M.rowLabel r = l
        · simp [h1, h2]
        · simp [h1, h2]
    simp only [hrow]
    exact sum_map_ite_one _ rows

/-- Claim C8: after the pass, the region counters for negative reviews sum
to the number of processed rows with a negative label; each negative row
increments exactly one region (defaulting to "Unknown" when the state is
blank) and non-negative rows increment none. -/
theorem claim_C8 (rows : List M.Row) (r : M.Row) :
    M.sumVals (M.accCounts rows).issues_by_state
      = rows.countP (fun x => decide (M.procText x ≠ "" ∧ M.rowLabel x = "negative"))
  ∧ M.sumVals (M.accCounts (rows ++ [r])).issues_by_state
      = M.sumVals (M.accCounts rows).issues_by_state
        + (if M.procText r ≠ "" ∧ M.rowLabel r = "negative" then 1 else 0)
  ∧ (pyStrip r.state = "" → M.regionOf r = "Unknown") := by
  have hmain : ∀ rs : List M.Row, M.sumVals (M.accCounts rs).issues_by_state
      = rs.countP fun x => decide (M.procText x ≠ "" ∧ M.rowLabel x = "negative") := by
    intro rs
    have h := M.sumVals_accCounts M.AggState.issues_by_state M.stateOps
      M.stepRow_state rfl rs
    rw [h]
    have hrow : ∀ x : M.Row, ((M.stateOps x).map Prod.snd).sum
        = if M.procText x ≠ "" ∧ M.rowLabel x = "negative" then 1 else 0 := by
      intro x
      unfold M.stateOps
      by_cases hc : M.procText x ≠ "" ∧ M.rowLabel x = "negative"
      · simp [hc]
      · simp [hc]
    simp only [hrow]
    exact sum_map_ite_one _ rs
  refine ⟨hmain rows, ?_, ?_⟩
  · rw [hmain (rows ++ [r]), hmain rows, List.countP_append]
    simp only [List.countP_cons, List.countP_nil]
    by_cases hc : M.procText r ≠ "" ∧ M.rowLabel r = "negative"
    · simp [hc]
    · simp [hc]
  · intro hblank
    show (if pyStrip (if r.state = "" then "Unknown" else r.state) = ""
          then "Unknown"
          else pyStrip (if r.state = "" then "Unknown" else r.state)) = "Unknown"
    by_cases hs : r.state = ""
    · rw [if_pos hs]
      have h1 : pyStrip "Unknown" = "Unknown" := by decide
      rw [h1, if_neg (by decide : ¬("Unknown" : String) = "")]
    · rw [if_neg hs, hblank, if_pos rfl]

/-- A row with a whitespace-only state field. -/
def rowBlank : M.Row := ⟨"fine", "3", "  ", none⟩

/-- Witness for C8: the empty pass sums to zero and a blank state defaults
to "Unknown". -/
theorem claim_C8_witness :
    M.sumVals (M.accCounts ([] : List M.Row)).issues_by_state
      = ([] : List M.Row).countP
          (fun x => decide (M.procText x ≠ "" ∧ M.rowLabel x = "negative"))
  ∧ M.regionOf rowBlank = "Unknown" :=
  ⟨(claim_C8 [] rowBlank).1, (claim_C8 [] rowBlank).2.2 (by decide)⟩

/-- Claim C2: splitting a row sequence into two partitions, aggregating
each, merging the partial counter states by summing same-keyed counters
and recomputing Top-K yields the snapshot of aggregating the whole
sequence: exactly (as insertion-ordered dictionaries) for a contiguous
split, and as Python dict equality (`metricsEq`) for an arbitrary
partition given as a permutation. -/
theorem claim_C2 (p1 p2 rows : List M.Row) (h : (p1 ++ p2).Perm rows) :
    M.accumulate_counts (p1 ++ p2)
      = M.finalizeAgg (M.mergeState (M.accCounts p1) (M.accCounts p2))
  ∧ M.metricsEq (M.finalizeAgg (M.mergeState (M.accCounts p1) (M.accCounts p2)))
      (M.accumulate_counts rows) := by
  have hkey := M.accCounts_append p1 p2
  constructor
  · show M.finalizeAgg (M.accCounts (p1 ++ p2)) = _
    rw [hkey]
  · rw [← hkey]
    show M.metricsEq (M.finalizeAgg (M.accCounts (p1 ++ p2)))
      (M.finalizeAgg (M.accCounts rows))
    refine ⟨?_, ?_, ?_, ?_, ?_⟩
    · intro k
      exact M.lookupN_accCounts_perm M.AggState.label_counts M.labelOps
        M.stepRow_label rfl _ _ h k
    · intro k
      exact M.lookupN_accCounts_perm M.AggState.rating_hist M.ratingOps
        M.stepRow_rating rfl _ _ h k
    · refine M.top_k_congr _ _ ?_ 10
      refine M.counter_perm _ _ ?_ ?_ ?_
      · exact M.goodC_accCounts M.AggState.issues_by_state M.stateOps
          M.stepRow_state rfl (fun r kv hk => M.stateOps_pos r kv hk) (p1 ++ p2)
      · exact M.goodC_accCounts M.AggState.issues_by_state M.stateOps
          M.stepRow_state rfl (fun r kv hk => M.stateOps_pos r kv hk) rows
      · intro k
        exact M.lookupN_accCounts_perm M.AggState.issues_by_state M.stateOps
          M.stepRow_state rfl _ _ h k
    · intro k
      exact M.lookupN_accCounts_perm M.AggState.issue_buckets M.bucketOps
        M.stepRow_bucket rfl _ _ h k
    · refine M.top_k_congr _ _ ?_ 15
      refine M.counter_perm _ _ ?_ ?_ ?_
      · exact M.goodC_accCounts M.AggState.neg_terms M.termOps
          M.stepRow_term rfl (fun r kv hk => M.termOps_pos r kv hk) (p1 ++ p2)
      · exact M.goodC_accCounts M.AggState.neg_terms M.termOps
          M.stepRow_term rfl (fun r kv hk => M.termOps_pos r kv hk) rows
      · intro k
        exact M.lookupN_accCounts_perm M.AggState.neg_terms M.termOps
          M.stepRow_term rfl _ _ h k

/-- A negative and a positive sample row for the merge-law witness. -/
def rowW1 : M.Row := ⟨"rude", "4", "NY", none⟩

/-- Second sample row for the merge-law witness. -/
def rowW2 : M.Row := ⟨"good care", "5", "CA", none⟩

/-- Witness for C2 at a concrete two-row split (given in swapped order). -/
theorem claim_C2_witness :
    M.accumulate_counts ([rowW1] ++ [rowW2])
      = M.finalizeAgg (M.mergeState (M.accCounts [rowW1]) (M.accCounts [rowW2]))
  ∧ M.metricsEq
      (M.finalizeAgg (M.mergeState (M.accCounts [rowW1]) (M.accCounts [rowW2])))
      (M.accumulate_counts [rowW2, rowW1]) :=
  claim_C2 [rowW1] [rowW2] [rowW2, rowW1] (by decide)

end CareSense
